import Mathlib

/-!
Verification of the delay-line and latency-equalization logic of
`tools/lsync.c` (with the shared weighted-latency formula also used by
`tools/lset.c`) from the jack-example-tools repository.

Modelling conventions:
* audio samples (`jack_default_audio_sample_t`, a C float) are modelled
  as `Int`; the code only copies samples and writes zero samples
  (silence), it never performs arithmetic on them, so any type with a
  distinguished zero is faithful;
* latencies (C `float` arithmetic on values derived from
  `jack_nframes_t`) are modelled as exact rationals `ℚ`;
* frame counts (`jack_nframes_t`, a 32-bit unsigned) are modelled as
  `Nat`; none of the verified code paths can overflow 32 bits for
  well-formed states, and the one place the C code drops to `int`
  (the cursor recomputation in `audio_delay_line_resize`) is modelled
  with `Int` exactly as written;
* the raw sample buffer behind the `data` pointer is a `List Int` whose
  length is the allocated size; `memcpy`/`memmove`/`memset` become
  explicit readSlice reads and elementwise writes (the source region is
  snapshotted before the destination is written, which is exactly the
  overlap-safe semantics of `memmove`);
* `realloc` is modelled by two extra parameters: `fresh`, the
  unspecified contents of newly obtained memory, and `allocOk`, whether
  the allocation succeeds (on failure `realloc` returns NULL and the C
  code stores that NULL into `data`, modelled as the empty list).
-/

/-- Reading a buffer window: `readSlice l s n` is the `n`-element window of `l` starting at index `s`
(a read of a `memcpy`-style source pointer `l + s` with count `n`). -/
def readSlice (l : List Int) (s n : Nat) : List Int := (l.drop s).take n

/-- Writing a buffer window: `writeSlice l s xs` stores the samples `xs` into `l` starting at
index `s`, one element at a time (the destination write of a
`memcpy`/`memmove`/`memset`). -/
def writeSlice : List Int → Nat → List Int → List Int
  | l, _, [] => l
  | l, s, x :: xs => writeSlice (l.set s x) (s + 1) xs

/-- Mirror of `struct audio_delay_line` (lsync.c).  `data` is the
allocated buffer (length `alloc_size` in well-formed states), `size`
the current delay in samples, `pos` the index of the next sample to
read. -/
structure DelayLine where
  data : List Int
  size : Nat
  alloc_size : Nat
  pos : Nat
deriving Repr, DecidableEq

/-- Model of `audio_delay_line_new` (lsync.c): a fresh line with delay 0 and no
allocated buffer. -/
def audio_delay_line_new : DelayLine :=
  { data := [], size := 0, alloc_size := 0, pos := 0 }

/-- The part of `audio_delay_line_resize` (lsync.c) after the
allocation step succeeded: cursor recomputation (done in C `int`
arithmetic, hence the `Int` detour), the `memmove` that drags data
around, the silence `memset` when growing, and the final field
updates.  Returns the C `int` result (0) with the mutated line. -/
def audio_delay_line_resize_body (line : DelayLine) (size : Nat) : Nat × DelayLine :=
  let posInt : Int := (line.pos : Int) + (size : Int) - (line.size : Int)
  let pos : Nat := if posInt < 0 then 0 else posInt.toNat
  let data1 := writeSlice line.data line.pos (readSlice line.data pos (size - pos))
  let data2 := if size > line.size
    then writeSlice data1 line.pos (List.replicate (size - line.size) 0)
    else data1
  (0, { line with data := data2,
                  pos := if line.size ≠ 0 then pos else 0,
                  size := size })

/-- Model of `audio_delay_line_resize` (lsync.c).  When `size > alloc_size` it
reallocates first: `alloc_size` is updated, and the buffer either keeps
its old contents followed by unspecified `fresh` samples (success) or
becomes NULL (failure, return value 1, with `size` and `pos` left
untouched). -/
def audio_delay_line_resize (line : DelayLine) (size : Nat) (fresh : Int) (allocOk : Bool) : Nat × DelayLine :=
  if size > line.alloc_size then
    if allocOk then
      audio_delay_line_resize_body
        { line with alloc_size := size,
                    data := line.data ++ List.replicate (size - line.data.length) fresh }
        size
    else
      (1, { line with alloc_size := size, data := [] })
  else
    audio_delay_line_resize_body line size

/-- Model of `audio_delay_line_process` (lsync.c): emit `period` output samples
while feeding `period` input samples through the line.  Returns the
mutated line and the output block. -/
def audio_delay_line_process (line : DelayLine) (input : List Int) (period : Nat) : DelayLine × List Int :=
  let to_swap := min period line.size
  if line.size ≠ 0 then
    let chunk1 := min (line.size - line.pos) to_swap
    let out1 := readSlice line.data line.pos chunk1
    let data1 := writeSlice line.data line.pos (readSlice input (period - to_swap) chunk1)
    let chunk2 := to_swap - chunk1
    let out2 := readSlice data1 0 chunk2
    let data2 := writeSlice data1 0 (readSlice input (period - chunk2) chunk2)
    ({ line with data := data2, pos := (line.pos + to_swap) % line.size },
     out1 ++ out2 ++ readSlice input 0 (period - to_swap))
  else
    (line, readSlice input 0 (period - to_swap))

/-- The logical content of the ring, oldest sample first:
`data[pos .. size)` followed by `data[0 .. pos)`. -/
def DelayLine.content (line : DelayLine) : List Int :=
  readSlice line.data line.pos (line.size - line.pos) ++ readSlice line.data 0 line.pos

/-- Well-formedness of a delay line, established by
`audio_delay_line_new` and maintained by the operations: the delay fits
in the allocation, the model buffer has exactly the allocated length,
and the read cursor is in range (0 for an empty line). -/
def DelayLine.WF (line : DelayLine) : Prop :=
  line.size ≤ line.alloc_size ∧ line.data.length = line.alloc_size ∧
    (line.size = 0 → line.pos = 0) ∧ (0 < line.size → line.pos < line.size)

instance (line : DelayLine) : Decidable line.WF := by
  unfold DelayLine.WF; infer_instance

/-- Fold `audio_delay_line_process` over a sequence of input blocks
(each block processed with its own length as the period), collecting
all emitted samples. -/
def processAll (line : DelayLine) : List (List Int) → DelayLine × List Int
  | [] => (line, [])
  | b :: bs =>
    let r1 := audio_delay_line_process line b b.length
    let r2 := processAll r1.1 bs
    (r2.1, r1.2 ++ r2.2)

/-- Model of `jack_latency_range_t`: min/max latency bounds in frames. -/
structure LatencyRange where
  min : Nat
  max : Nat
deriving Repr, DecidableEq

/-- The weighted-latency formula shared by `get_port_latency` (lsync.c)
and the correction step of `jack_latency` (lset.c):
`coefficient*max + (1-coefficient)*min`. -/
def weighted_latency (mn mx c : ℚ) : ℚ := c * mx + (1 - c) * mn

/-- Model of `get_port_latency` (lsync.c): the weighted latency of the range a
port reports for the requested mode.  The port read is abstracted into
the `LatencyRange` argument. -/
def get_port_latency (c : ℚ) (r : LatencyRange) : ℚ :=
  weighted_latency (r.min : ℚ) (r.max : ℚ) c

/-- The configuration flags of lsync.c that the latency logic reads. -/
structure Config where
  equalize_capture : Bool
  equalize_playback : Bool
  keep_maximum : Bool
  latency_coefficient : ℚ
deriving Repr, DecidableEq

/-- Mirror of `struct port_pair` (lsync.c).  The two JACK port handles
are abstracted into the latency ranges the callbacks read from them:
`inputCapRange` is what `jack_port_get_latency_range(input,
JackCaptureLatency)` reports and `outputPbRange` what
`jack_port_get_latency_range(output, JackPlaybackLatency)` reports. -/
structure Pair where
  inputCapRange : LatencyRange
  outputPbRange : LatencyRange
  latency : ℚ
  delay : Nat
  line : DelayLine
deriving Repr, DecidableEq

/-- Pair initialization in `main` (lsync.c): `delay` and `latency`
start at 0 with a fresh delay line. -/
def mk_pair (capR pbR : LatencyRange) : Pair :=
  { inputCapRange := capR, outputPbRange := pbR, latency := 0, delay := 0,
    line := audio_delay_line_new }

/-- The latency of one pair as accumulated by the first loop of
`recalculate_pair_delays` (lsync.c): start from 0 and add the weighted
latency of each equalized direction. -/
def pair_latency (cfg : Config) (p : Pair) : ℚ :=
  (if cfg.equalize_capture then get_port_latency cfg.latency_coefficient p.inputCapRange else 0) +
  (if cfg.equalize_playback then get_port_latency cfg.latency_coefficient p.outputPbRange else 0)

/-- One step of the running maximum
`if (max_latency < pairs[i].latency) max_latency = pairs[i].latency`. -/
def maxStep (m l : ℚ) : ℚ := if m < l then l else m

/-- Model of `jack_nframes_t new_delay = roundf(max_latency - pairs[i].latency)`
(lsync.c).  `roundf` rounds half away from zero, which for the
non-negative arguments arising here agrees with Mathlib's `round`
(round half up); the conversion to the unsigned `jack_nframes_t` is
`Int.toNat`. -/
def target_delay (maxLat lat : ℚ) : Nat := (round (maxLat - lat)).toNat

/-- The outcome of one `recalculate_pair_delays` call: the mutated pair
array, the updated global `max_latency`, whether the shared pairs lock
was acquired (the C `lock_acquired` flag; the lock is taken at most
once per call, and the main lock is touched only under the same flag),
and how many delay-line resizes were issued. -/
structure RecalcResult where
  pairs : List Pair
  max_latency : ℚ
  lockAcquired : Bool
  resizes : Nat
deriving Repr, DecidableEq

/-- Model of `recalculate_pair_delays` (lsync.c).  The first C loop stores each
pair's latency and folds the running maximum (seeded with the old
`max_latency` under the keep-maximum policy, with 0 otherwise); the
second loop skips pairs whose delay is already the target and otherwise
resizes the line and stores the new delay.  Each loop iteration touches
only its own pair plus the `lock_acquired` flag, so the loops are
rendered as `map`s with the flag and a resize count derived alongside.
The C code discards the `int` result of `audio_delay_line_resize`, and
so does this model. -/
def recalculate_pair_delays (cfg : Config) (pairs : List Pair) (max_latency : ℚ)
    (fresh : Int) (allocOk : Bool) : RecalcResult :=
  let pairs1 := pairs.map fun p => { p with latency := pair_latency cfg p }
  let maxLat := (pairs1.map Pair.latency).foldl maxStep
    (if cfg.keep_maximum then max_latency else 0)
  { pairs := pairs1.map fun p =>
      if p.delay = target_delay maxLat p.latency then p
      else { p with
        line := (audio_delay_line_resize p.line (target_delay maxLat p.latency) fresh allocOk).2,
        delay := target_delay maxLat p.latency },
    max_latency := maxLat,
    lockAcquired := pairs1.any fun p => p.delay != target_delay maxLat p.latency,
    resizes := pairs1.countP fun p => p.delay != target_delay maxLat p.latency }

/-- The two values of `jack_latency_callback_mode_t`. -/
inductive LatencyMode
  | capture
  | playback
deriving Repr, DecidableEq

/-- Which port of a pair a published range lands on. -/
inductive PortSide
  | input
  | output
deriving Repr, DecidableEq

/-- The range `jack_latency` (lsync.c) reads for a pair: the input
port's range in capture mode, the output port's range in playback
mode. -/
def upstream_range (mode : LatencyMode) (p : Pair) : LatencyRange :=
  match mode with
  | .capture => p.inputCapRange
  | .playback => p.outputPbRange

/-- Model of `jack_latency` (lsync.c): recalculate the delays, then for every
pair read the latency range of the `get` port for `mode` (input port in
capture mode, output port in playback mode), add the pair's delay to
both bounds, and set the result on the other (`set`) port for the same
mode.  Entry `i` of the returned list records which port of pair `i`
was set and with which range. -/
def jack_latency (mode : LatencyMode) (cfg : Config) (pairs : List Pair) (max_latency : ℚ)
    (fresh : Int) (allocOk : Bool) : RecalcResult × List (PortSide × LatencyRange) :=
  let r := recalculate_pair_delays cfg pairs max_latency fresh allocOk
  (r, r.pairs.map fun p =>
    let g := match mode with
      | .capture => p.inputCapRange
      | .playback => p.outputPbRange
    let side := match mode with
      | .capture => PortSide.output
      | .playback => PortSide.input
    (side, { min := g.min + p.delay, max := g.max + p.delay }))

/-- Model of `jack_process` (lsync.c) on the successful try-lock path: run every
pair's input block through its delay line.  `blocks` pairs up with the
pair list positionally; returns the mutated pairs and the output
blocks. -/
def jack_process (pairs : List Pair) (blocks : List (List Int)) (nframes : Nat) :
    List Pair × List (List Int) :=
  ((pairs.zip blocks).map fun pb =>
      { pb.1 with line := (audio_delay_line_process pb.1.line pb.2 nframes).1 },
   (pairs.zip blocks).map fun pb => (audio_delay_line_process pb.1.line pb.2 nframes).2)

/-- The channel-pair invariant of the spec: each pair's `delay` equals
its delay line's `size`. -/
def DelayInv (pairs : List Pair) : Prop := ∀ p ∈ pairs, p.delay = p.line.size

instance (pairs : List Pair) : Decidable (DelayInv pairs) := by
  unfold DelayInv; infer_instance

/-! ### Basic facts about buffer reads and writes -/

theorem writeSlice_length (xs : List Int) : ∀ (l : List Int) (s : Nat),
    (writeSlice l s xs).length = l.length := by
  induction xs with
  | nil => intro l s; rfl
  | cons x xs ih => intro l s; rw [writeSlice, ih, List.length_set]

theorem writeSlice_eq (xs : List Int) : ∀ (l : List Int) (s : Nat), s + xs.length ≤ l.length →
    writeSlice l s xs = l.take s ++ xs ++ l.drop (s + xs.length) := by
  induction xs with
  | nil => intro l s h; simp [writeSlice]
  | cons x xs ih =>
    intro l s h
    have hs : s < l.length := by simp only [List.length_cons] at h; omega
    rw [writeSlice, ih _ _ (by rw [List.length_set]; simp only [List.length_cons] at h; omega)]
    rw [List.set_eq_take_cons_drop x hs]
    rw [List.take_append_eq_append_take, List.drop_append_eq_append_drop]
    have h1 : (l.take s).length = s := by rw [List.length_take]; omega
    rw [h1]
    rw [List.take_of_length_le (by omega : (l.take s).length ≤ s + 1)]
    rw [List.drop_eq_nil_of_le (by omega : (l.take s).length ≤ s + 1 + xs.length)]
    have h2 : s + 1 - s = 1 := by omega
    have h3 : s + 1 + xs.length - s = 1 + xs.length := by omega
    rw [h2, h3]
    simp only [List.take_succ_cons, List.take_zero, List.nil_append]
    have h4 : (1 + xs.length) = xs.length + 1 := by omega
    rw [h4, List.drop_succ_cons, List.drop_drop]
    simp only [List.cons_append, List.nil_append, List.append_assoc]
    have h5 : s + 1 + xs.length = s + (x :: xs).length := by
      simp only [List.length_cons]; omega
    rw [h5]

theorem readSlice_length (l : List Int) (s n : Nat) (h : s + n ≤ l.length) :
    (readSlice l s n).length = n := by
  simp only [readSlice, List.length_take, List.length_drop]; omega

theorem writeSlice_self (l : List Int) (s n : Nat) (h : s + n ≤ l.length) :
    writeSlice l s (readSlice l s n) = l := by
  rw [writeSlice_eq _ _ _ (by rw [readSlice_length _ _ _ h]; omega)]
  rw [readSlice_length _ _ _ h, readSlice]
  rw [List.append_assoc, List.drop_take_append_drop, List.take_append_drop]

/-! ### C5: the weighted-latency formula -/

/-- C5: `weighted_latency mn mx c` is `c*mx + (1-c)*mn`; for
`mn ≤ mx` and a coefficient `c ∈ [0,1]` the result lies between `mn`
and `mx` inclusive; at `c = 0` it equals `mn`, at `c = 1` it equals
`mx`, and at `c = 1/2` it is the midpoint. -/
theorem weighted_latency_spec (mn mx c : ℚ) (h1 : mn ≤ mx) (h2 : 0 ≤ c) (h3 : c ≤ 1) :
    weighted_latency mn mx c = c * mx + (1 - c) * mn ∧
    mn ≤ weighted_latency mn mx c ∧ weighted_latency mn mx c ≤ mx ∧
    weighted_latency mn mx 0 = mn ∧ weighted_latency mn mx 1 = mx ∧
    weighted_latency mn mx (1/2) = (mn + mx) / 2 := by
  refine ⟨rfl, ?_, ?_, by simp [weighted_latency], by simp [weighted_latency],
    by rw [weighted_latency]; ring⟩
  · have hc := mul_nonneg h2 (sub_nonneg.2 h1)
    unfold weighted_latency; nlinarith
  · have hc := mul_nonneg (sub_nonneg.2 h3) (sub_nonneg.2 h1)
    unfold weighted_latency; nlinarith

/-- Witness for C5 at `mn = 1`, `mx = 3`, `c = 1`. -/
theorem weighted_latency_spec_witness :
    weighted_latency 1 3 1 = 1 * 3 + (1 - 1) * 1 ∧
    (1:ℚ) ≤ weighted_latency 1 3 1 ∧ weighted_latency 1 3 1 ≤ 3 ∧
    weighted_latency 1 3 0 = 1 ∧ weighted_latency 1 3 1 = 3 ∧
    weighted_latency 1 3 (1/2) = (1 + 3) / 2 :=
  weighted_latency_spec 1 3 1 (by decide) (by decide) (by decide)

/-! ### C6: resizing to the current size is a no-op -/

/-- C6: resizing a well-formed delay line to its current size is a
complete no-op: the call returns 0 and the state (buffer, allocation,
cursor, content) is unchanged. -/
theorem resize_to_current_size_noop (line : DelayLine) (fresh : Int) (allocOk : Bool)
    (h : line.WF) :
    audio_delay_line_resize line line.size fresh allocOk = (0, line) := by
  rcases line with ⟨D, d, a, p⟩
  obtain ⟨h1, h2, h3, h4⟩ := h
  dsimp only at h1 h2 h3 h4
  have hp : p ≤ d := by
    rcases Nat.eq_zero_or_pos d with hd | hd
    · simp [h3 hd]
    · exact le_of_lt (h4 hd)
  unfold audio_delay_line_resize
  dsimp only
  rw [if_neg (by omega : ¬ d > a)]
  unfold audio_delay_line_resize_body
  dsimp only
  have e1 : (if ((p:Int) + (d:Int) - (d:Int)) < 0 then (0:Nat)
      else ((p:Int) + (d:Int) - (d:Int)).toNat) = p := by split <;> omega
  rw [e1]
  rw [writeSlice_self D p (d - p) (by omega)]
  rw [if_neg (lt_irrefl d)]
  by_cases hd : d = 0
  · subst hd
    have hp0 : p = 0 := h3 rfl
    subst hp0
    rfl
  · rw [if_pos hd]

/-- Witness for C6: a wrapped, partially-rotated line of size 5. -/
theorem resize_to_current_size_noop_witness :
    audio_delay_line_resize ⟨[13, 14, 10, 11, 12], 5, 5, 2⟩ 5 7 true =
      (0, ⟨[13, 14, 10, 11, 12], 5, 5, 2⟩) :=
  resize_to_current_size_noop ⟨[13, 14, 10, 11, 12], 5, 5, 2⟩ 7 true (by decide)

/-! ### C10: a failed resize is observable, not atomic -/

/-- C10: when growing needs an allocation and the allocation fails,
`audio_delay_line_resize` returns 1 having already overwritten
`alloc_size` with the requested size and `data` with the NULL result of
`realloc` (the empty buffer), so the buffered samples are lost and the
state differs from the pre-call state; `size` and `pos` are left as
they were. -/
theorem resize_failure_not_atomic (line : DelayLine) (sz : Nat) (fresh : Int)
    (h : line.alloc_size < sz) :
    (audio_delay_line_resize line sz fresh false).1 = 1 ∧
    (audio_delay_line_resize line sz fresh false).2.alloc_size = sz ∧
    (audio_delay_line_resize line sz fresh false).2.data = [] ∧
    (audio_delay_line_resize line sz fresh false).2.size = line.size ∧
    (audio_delay_line_resize line sz fresh false).2.pos = line.pos ∧
    (audio_delay_line_resize line sz fresh false).2 ≠ line := by
  rw [audio_delay_line_resize, if_pos (by omega : sz > line.alloc_size),
    if_neg Bool.false_ne_true]
  refine ⟨rfl, rfl, rfl, rfl, rfl, fun he => ?_⟩
  have halloc := congrArg DelayLine.alloc_size he
  simp only [DelayLine.alloc_size] at halloc
  omega

/-- Witness for C10: growing a full 3-sample line to 5 with a failing
allocation. -/
theorem resize_failure_not_atomic_witness :
    (audio_delay_line_resize ⟨[1, 2, 3], 3, 3, 0⟩ 5 7 false).1 = 1 ∧
    (audio_delay_line_resize ⟨[1, 2, 3], 3, 3, 0⟩ 5 7 false).2.alloc_size = 5 ∧
    (audio_delay_line_resize ⟨[1, 2, 3], 3, 3, 0⟩ 5 7 false).2.data = [] ∧
    (audio_delay_line_resize ⟨[1, 2, 3], 3, 3, 0⟩ 5 7 false).2.size =
      (⟨[1, 2, 3], 3, 3, 0⟩ : DelayLine).size ∧
    (audio_delay_line_resize ⟨[1, 2, 3], 3, 3, 0⟩ 5 7 false).2.pos =
      (⟨[1, 2, 3], 3, 3, 0⟩ : DelayLine).pos ∧
    (audio_delay_line_resize ⟨[1, 2, 3], 3, 3, 0⟩ 5 7 false).2 ≠ ⟨[1, 2, 3], 3, 3, 0⟩ :=
  resize_failure_not_atomic ⟨[1, 2, 3], 3, 3, 0⟩ 5 7 (by decide)

/-! ### C2: resize does not preserve the buffered content

The claim states that the most recent `min(old_size, new_size)` samples
survive a resize, that shrinking discards only the oldest samples, and
that growing pads the oldest end with silence.  Evaluating the code
shows otherwise.

Growing a well-formed line `data = [1,2,3]`, `size = 3`, `pos = 0`
(content `[1,2,3]`, oldest first) to size 5 should, per the claim,
give content `[0,0,1,2,3]`.  The code instead leaves content
`[f,f,f,0,0]` where `f` is the unspecified value of the memory
`realloc` returned: all three buffered samples are destroyed, the
silence ends up at the newest end, and uninitialized memory becomes
part of the audible ring (contradicting the code's own comment that
the new samples are filled with silence).

Shrinking `[1,2,3,4,5]` (content oldest-first, `pos = 0`) to 3 should
keep the most recent `[3,4,5]`; the code keeps the oldest `[1,2,3]`.
With a rotated cursor it even duplicates samples: shrinking the line
`data = [13,14,10,11,12]`, `size = 5`, `pos = 2` (content
`[10,...,14]`) to 3 yields content `[13,14,13]`. -/

/-- Evidence for C2: concrete evaluations of
`audio_delay_line_resize` destroying buffered content; the dependence
on `fresh` shows uninitialized memory reaching the ring. -/
theorem resize_loses_buffered_content :
    (audio_delay_line_resize ⟨[1, 2, 3], 3, 3, 0⟩ 5 7 true).2.content = [7, 7, 7, 0, 0] ∧
    (audio_delay_line_resize ⟨[1, 2, 3], 3, 3, 0⟩ 5 8 true).2.content = [8, 8, 8, 0, 0] ∧
    [(7:Int), 7, 7, 0, 0] ≠ [0, 0, 1, 2, 3] ∧
    (audio_delay_line_resize ⟨[1, 2, 3, 4, 5], 5, 5, 0⟩ 3 7 true).2.content = [1, 2, 3] ∧
    [(1:Int), 2, 3] ≠ [3, 4, 5] ∧
    (audio_delay_line_resize ⟨[13, 14, 10, 11, 12], 5, 5, 2⟩ 3 7 true).2.content =
      [13, 14, 13] := by
  decide

/-! ### Facts about the running maximum and `recalculate_pair_delays` -/

theorem le_maxStep_left (a x : ℚ) : a ≤ maxStep a x := by
  unfold maxStep; split
  · exact le_of_lt (by assumption)
  · exact le_refl a

theorem le_maxStep_right (a x : ℚ) : x ≤ maxStep a x := by
  unfold maxStep; split
  · exact le_refl x
  · exact le_of_not_lt (by assumption)

theorem le_foldl_maxStep (l : List ℚ) : ∀ a : ℚ, a ≤ l.foldl maxStep a := by
  induction l with
  | nil => intro a; exact le_refl a
  | cons x l ih => intro a; exact le_trans (le_maxStep_left a x) (ih (maxStep a x))

theorem mem_le_foldl_maxStep (l : List ℚ) : ∀ (a x : ℚ), x ∈ l → x ≤ l.foldl maxStep a := by
  induction l with
  | nil => intro a x hx; cases hx
  | cons y l ih =>
    intro a x hx
    rcases List.mem_cons.1 hx with h | h
    · subst h; exact le_trans (le_maxStep_right a x) (le_foldl_maxStep l (maxStep a x))
    · exact ih (maxStep a y) x h

theorem foldl_maxStep_of_le (l : List ℚ) : ∀ a : ℚ, (∀ x ∈ l, x ≤ a) → l.foldl maxStep a = a := by
  induction l with
  | nil => intro a _; rfl
  | cons y l ih =>
    intro a h
    have hy : maxStep a y = a := by
      unfold maxStep; rw [if_neg (not_lt.2 (h y (List.mem_cons_self y l)))]
    rw [List.foldl_cons, hy]
    exact ih a fun x hx => h x (List.mem_cons_of_mem y hx)

theorem foldl_maxStep_mem (l : List ℚ) : ∀ a : ℚ,
    l.foldl maxStep a = a ∨ l.foldl maxStep a ∈ l := by
  induction l with
  | nil => intro a; exact Or.inl rfl
  | cons y l ih =>
    intro a
    rcases ih (maxStep a y) with h | h
    · rw [List.foldl_cons]
      by_cases hay : a < y
      · right; rw [h]; unfold maxStep; rw [if_pos hay]; exact List.mem_cons_self y l
      · left; rw [h]; unfold maxStep; rw [if_neg hay]
    · right; rw [List.foldl_cons]; exact List.mem_cons_of_mem y h

theorem round_nonneg_of (x : ℚ) (hx : 0 ≤ x) : 0 ≤ round x := by
  rw [round_eq]
  refine Int.le_floor.2 ?_
  push_cast
  linarith

/-- The global maximum computed by one recalculation pass, expressed
over the original pair list. -/
theorem recalc_max_latency (cfg : Config) (pairs : List Pair) (m : ℚ)
    (fresh : Int) (ok : Bool) :
    (recalculate_pair_delays cfg pairs m fresh ok).max_latency =
      (pairs.map (pair_latency cfg)).foldl maxStep
        (if cfg.keep_maximum then m else 0) := by
  unfold recalculate_pair_delays
  dsimp only
  rw [List.map_map]
  rfl

/-- The pair list produced by one recalculation pass, expressed as a
single map over the original pair list. -/
theorem recalc_pairs_eq (cfg : Config) (pairs : List Pair) (m : ℚ)
    (fresh : Int) (ok : Bool) :
    (recalculate_pair_delays cfg pairs m fresh ok).pairs =
      pairs.map fun p =>
        if p.delay = target_delay (recalculate_pair_delays cfg pairs m fresh ok).max_latency
            (pair_latency cfg p) then
          { p with latency := pair_latency cfg p }
        else
          { p with latency := pair_latency cfg p,
                   line := (audio_delay_line_resize p.line
                     (target_delay (recalculate_pair_delays cfg pairs m fresh ok).max_latency
                       (pair_latency cfg p)) fresh ok).2,
                   delay := target_delay
                     (recalculate_pair_delays cfg pairs m fresh ok).max_latency
                     (pair_latency cfg p) } := by
  conv_lhs => unfold recalculate_pair_delays
  dsimp only
  rw [List.map_map]
  rfl

/-- Every pair produced by a recalculation pass carries its recomputed
latency (one of the original pairs' latencies) and a delay equal to the
rounded distance to the new global maximum. -/
theorem recalc_mem_pairs (cfg : Config) (pairs : List Pair) (m : ℚ)
    (fresh : Int) (ok : Bool) :
    ∀ q ∈ (recalculate_pair_delays cfg pairs m fresh ok).pairs,
      q.delay = target_delay (recalculate_pair_delays cfg pairs m fresh ok).max_latency
        q.latency ∧
      q.latency ∈ pairs.map (pair_latency cfg) := by
  intro q hq
  rw [recalc_pairs_eq] at hq
  rcases List.mem_map.1 hq with ⟨p, hp, rfl⟩
  by_cases h : p.delay =
      target_delay (recalculate_pair_delays cfg pairs m fresh ok).max_latency
        (pair_latency cfg p)
  · rw [if_pos h]
    exact ⟨h, List.mem_map_of_mem _ hp⟩
  · rw [if_neg h]
    exact ⟨rfl, List.mem_map_of_mem _ hp⟩

/-- Conversely, every original pair contributes a recomputed pair whose
stored latency is its recomputed latency. -/
theorem recalc_mem_pairs_of_mem (cfg : Config) (pairs : List Pair) (m : ℚ)
    (fresh : Int) (ok : Bool) :
    ∀ p ∈ pairs, ∃ q ∈ (recalculate_pair_delays cfg pairs m fresh ok).pairs,
      q.latency = pair_latency cfg p := by
  intro p hp
  rw [recalc_pairs_eq]
  by_cases h : p.delay =
      target_delay (recalculate_pair_delays cfg pairs m fresh ok).max_latency
        (pair_latency cfg p)
  · exact ⟨_, List.mem_map_of_mem _ hp, by rw [if_pos h]⟩
  · exact ⟨_, List.mem_map_of_mem _ hp, by rw [if_neg h]⟩

/-! ### C3: convergence of one recalculation pass -/

/-- C3: after one `recalculate_pair_delays` pass every pair's delay
equals `round(max_latency - latency)` (as an integer, so in particular
it is non-negative); when the keep-maximum policy is off (and the
configuration produces non-negative latencies, with at least one pair),
the new `max_latency` is the maximum over all pairs' latencies — it
dominates every pair and is attained by one — and every pair attaining
it has delay 0. -/
theorem recalc_convergence (cfg : Config) (pairs : List Pair) (m : ℚ)
    (fresh : Int) (ok : Bool)
    (hne : pairs ≠ [])
    (hnn : ∀ p ∈ pairs, 0 ≤ pair_latency cfg p) :
    (∀ q ∈ (recalculate_pair_delays cfg pairs m fresh ok).pairs,
        (q.delay : ℤ) =
          round ((recalculate_pair_delays cfg pairs m fresh ok).max_latency - q.latency)) ∧
    (cfg.keep_maximum = false →
      (∀ q ∈ (recalculate_pair_delays cfg pairs m fresh ok).pairs,
          q.latency ≤ (recalculate_pair_delays cfg pairs m fresh ok).max_latency) ∧
      (∃ q ∈ (recalculate_pair_delays cfg pairs m fresh ok).pairs,
          q.latency = (recalculate_pair_delays cfg pairs m fresh ok).max_latency) ∧
      (∀ q ∈ (recalculate_pair_delays cfg pairs m fresh ok).pairs,
          q.latency = (recalculate_pair_delays cfg pairs m fresh ok).max_latency →
          q.delay = 0)) := by
  have hub : ∀ q ∈ (recalculate_pair_delays cfg pairs m fresh ok).pairs,
      q.latency ≤ (recalculate_pair_delays cfg pairs m fresh ok).max_latency := by
    intro q hq
    obtain ⟨-, hmem⟩ := recalc_mem_pairs cfg pairs m fresh ok q hq
    rw [recalc_max_latency]
    exact mem_le_foldl_maxStep _ _ _ hmem
  refine ⟨?_, fun hk => ⟨hub, ?_, ?_⟩⟩
  · intro q hq
    obtain ⟨hd, hmem⟩ := recalc_mem_pairs cfg pairs m fresh ok q hq
    rw [hd, target_delay]
    exact Int.toNat_of_nonneg (round_nonneg_of _ (by linarith [hub q hq]))
  · rw [recalc_max_latency, hk, if_neg (by simp)]
    rcases foldl_maxStep_mem (pairs.map (pair_latency cfg)) 0 with h0 | hmem
    · obtain ⟨p, hp⟩ := List.exists_mem_of_ne_nil pairs hne
      obtain ⟨q, hq, hql⟩ := recalc_mem_pairs_of_mem cfg pairs m fresh ok p hp
      refine ⟨q, hq, ?_⟩
      have h1 : pair_latency cfg p ≤ (pairs.map (pair_latency cfg)).foldl maxStep 0 :=
        mem_le_foldl_maxStep _ _ _ (List.mem_map_of_mem _ hp)
      have h2 := hnn p hp
      rw [hql]
      linarith [h0 ▸ h1]
    · rcases List.mem_map.1 hmem with ⟨p, hp, hpl⟩
      obtain ⟨q, hq, hql⟩ := recalc_mem_pairs_of_mem cfg pairs m fresh ok p hp
      exact ⟨q, hq, by rw [hql, hpl]⟩
  · intro q hq hql
    obtain ⟨hd, -⟩ := recalc_mem_pairs cfg pairs m fresh ok q hq
    rw [hd, hql, target_delay, sub_self, round_zero]
    rfl

/-- Witness for C3: two playback-equalized pairs with latencies 0 and 4
under coefficient 1. -/
theorem recalc_convergence_witness :
    (∀ q ∈ (recalculate_pair_delays ⟨false, true, false, 1⟩
        [mk_pair ⟨0, 0⟩ ⟨0, 0⟩, mk_pair ⟨0, 0⟩ ⟨4, 4⟩] 0 7 true).pairs,
        (q.delay : ℤ) =
          round ((recalculate_pair_delays ⟨false, true, false, 1⟩
            [mk_pair ⟨0, 0⟩ ⟨0, 0⟩, mk_pair ⟨0, 0⟩ ⟨4, 4⟩] 0 7 true).max_latency -
              q.latency)) ∧
    ((⟨false, true, false, 1⟩ : Config).keep_maximum = false →
      (∀ q ∈ (recalculate_pair_delays ⟨false, true, false, 1⟩
          [mk_pair ⟨0, 0⟩ ⟨0, 0⟩, mk_pair ⟨0, 0⟩ ⟨4, 4⟩] 0 7 true).pairs,
          q.latency ≤ (recalculate_pair_delays ⟨false, true, false, 1⟩
            [mk_pair ⟨0, 0⟩ ⟨0, 0⟩, mk_pair ⟨0, 0⟩ ⟨4, 4⟩] 0 7 true).max_latency) ∧
      (∃ q ∈ (recalculate_pair_delays ⟨false, true, false, 1⟩
          [mk_pair ⟨0, 0⟩ ⟨0, 0⟩, mk_pair ⟨0, 0⟩ ⟨4, 4⟩] 0 7 true).pairs,
          q.latency = (recalculate_pair_delays ⟨false, true, false, 1⟩
            [mk_pair ⟨0, 0⟩ ⟨0, 0⟩, mk_pair ⟨0, 0⟩ ⟨4, 4⟩] 0 7 true).max_latency) ∧
      (∀ q ∈ (recalculate_pair_delays ⟨false, true, false, 1⟩
          [mk_pair ⟨0, 0⟩ ⟨0, 0⟩, mk_pair ⟨0, 0⟩ ⟨4, 4⟩] 0 7 true).pairs,
          q.latency = (recalculate_pair_delays ⟨false, true, false, 1⟩
            [mk_pair ⟨0, 0⟩ ⟨0, 0⟩, mk_pair ⟨0, 0⟩ ⟨4, 4⟩] 0 7 true).max_latency →
          q.delay = 0)) :=
  recalc_convergence ⟨false, true, false, 1⟩
    [mk_pair ⟨0, 0⟩ ⟨0, 0⟩, mk_pair ⟨0, 0⟩ ⟨4, 4⟩] 0 7 true
    (by decide)
    (by norm_num [pair_latency, get_port_latency, weighted_latency, mk_pair])

theorem map_id_of_mem {α : Type} {l : List α} {f : α → α} (h : ∀ x ∈ l, f x = x) :
    l.map f = l := by
  induction l with
  | nil => rfl
  | cons y l ih =>
    rw [List.map_cons, h y (List.mem_cons_self y l),
      ih fun x hx => h x (List.mem_cons_of_mem y hx)]

/-- The latency stored in a recomputed pair is the pair's recomputed
latency (the ranges it is computed from are untouched). -/
theorem recalc_latency_stored (cfg : Config) (pairs : List Pair) (m : ℚ)
    (fresh : Int) (ok : Bool) :
    ∀ q ∈ (recalculate_pair_delays cfg pairs m fresh ok).pairs,
      q.latency = pair_latency cfg q := by
  intro q hq
  rw [recalc_pairs_eq] at hq
  rcases List.mem_map.1 hq with ⟨p, hp, rfl⟩
  by_cases h : p.delay =
      target_delay (recalculate_pair_delays cfg pairs m fresh ok).max_latency
        (pair_latency cfg p)
  · rw [if_pos h]; rfl
  · rw [if_neg h]; rfl

/-- Recomputing the latencies of an already-recomputed pair list gives
the same latencies. -/
theorem recalc_latencies_eq (cfg : Config) (pairs : List Pair) (m : ℚ)
    (fresh : Int) (ok : Bool) :
    (recalculate_pair_delays cfg pairs m fresh ok).pairs.map (pair_latency cfg) =
      pairs.map (pair_latency cfg) := by
  rw [recalc_pairs_eq, List.map_map]
  apply List.map_congr_left
  intro p _
  by_cases h : p.delay =
      target_delay (recalculate_pair_delays cfg pairs m fresh ok).max_latency
        (pair_latency cfg p)
  · simp only [Function.comp_apply, if_pos h]; rfl
  · simp only [Function.comp_apply, if_neg h]; rfl

/-- The lock flag of a recalculation pass, over the original pairs. -/
theorem recalc_lockAcquired (cfg : Config) (pairs : List Pair) (m : ℚ)
    (fresh : Int) (ok : Bool) :
    (recalculate_pair_delays cfg pairs m fresh ok).lockAcquired =
      pairs.any fun p => p.delay !=
        target_delay (recalculate_pair_delays cfg pairs m fresh ok).max_latency
          (pair_latency cfg p) := by
  conv_lhs => unfold recalculate_pair_delays
  dsimp only
  rw [List.any_map]
  rfl

/-- The resize count of a recalculation pass, over the original
pairs. -/
theorem recalc_resizes (cfg : Config) (pairs : List Pair) (m : ℚ)
    (fresh : Int) (ok : Bool) :
    (recalculate_pair_delays cfg pairs m fresh ok).resizes =
      pairs.countP fun p => p.delay !=
        target_delay (recalculate_pair_delays cfg pairs m fresh ok).max_latency
          (pair_latency cfg p) := by
  conv_lhs => unfold recalculate_pair_delays
  dsimp only
  rw [List.countP_map]
  rfl

/-! ### C4: a second pass with unchanged inputs is a complete no-op -/

/-- C4: running `recalculate_pair_delays` again on the result of a
previous run (unchanged port latency ranges and configuration) changes
nothing, acquires the lock zero times (`lockAcquired = false`; the C
code takes the pairs lock — and later the main lock — only under that
flag) and performs zero delay-line resizes. -/
theorem recalc_second_call_noop (cfg : Config) (pairs : List Pair) (m : ℚ)
    (fresh : Int) (ok : Bool) (fresh2 : Int) (ok2 : Bool) :
    recalculate_pair_delays cfg (recalculate_pair_delays cfg pairs m fresh ok).pairs
        (recalculate_pair_delays cfg pairs m fresh ok).max_latency fresh2 ok2 =
      { pairs := (recalculate_pair_delays cfg pairs m fresh ok).pairs,
        max_latency := (recalculate_pair_delays cfg pairs m fresh ok).max_latency,
        lockAcquired := false,
        resizes := 0 } := by
  have hmax : (recalculate_pair_delays cfg
        (recalculate_pair_delays cfg pairs m fresh ok).pairs
        (recalculate_pair_delays cfg pairs m fresh ok).max_latency fresh2 ok2).max_latency =
      (recalculate_pair_delays cfg pairs m fresh ok).max_latency := by
    rw [recalc_max_latency, recalc_latencies_eq]
    by_cases hk : cfg.keep_maximum
    · rw [if_pos hk]
      apply foldl_maxStep_of_le
      intro x hx
      rw [recalc_max_latency, if_pos hk]
      exact mem_le_foldl_maxStep _ _ _ hx
    · rw [if_neg hk, recalc_max_latency, if_neg hk]
  have hcond : ∀ q ∈ (recalculate_pair_delays cfg pairs m fresh ok).pairs,
      q.delay = target_delay (recalculate_pair_delays cfg
        (recalculate_pair_delays cfg pairs m fresh ok).pairs
        (recalculate_pair_delays cfg pairs m fresh ok).max_latency fresh2 ok2).max_latency
          (pair_latency cfg q) := by
    intro q hq
    rw [hmax, ← recalc_latency_stored cfg pairs m fresh ok q hq]
    exact (recalc_mem_pairs cfg pairs m fresh ok q hq).1
  have hpairs : (recalculate_pair_delays cfg
        (recalculate_pair_delays cfg pairs m fresh ok).pairs
        (recalculate_pair_delays cfg pairs m fresh ok).max_latency fresh2 ok2).pairs =
      (recalculate_pair_delays cfg pairs m fresh ok).pairs := by
    rw [recalc_pairs_eq]
    apply map_id_of_mem
    intro q hq
    rw [if_pos (hcond q hq), ← recalc_latency_stored cfg pairs m fresh ok q hq]
  have hlock : (recalculate_pair_delays cfg
        (recalculate_pair_delays cfg pairs m fresh ok).pairs
        (recalculate_pair_delays cfg pairs m fresh ok).max_latency fresh2 ok2).lockAcquired =
      false := by
    rw [recalc_lockAcquired]
    rw [List.any_eq_false]
    intro q hq
    simp only [bne_iff_ne, ne_eq, not_not]
    exact hcond q hq
  have hres : (recalculate_pair_delays cfg
        (recalculate_pair_delays cfg pairs m fresh ok).pairs
        (recalculate_pair_delays cfg pairs m fresh ok).max_latency fresh2 ok2).resizes =
      0 := by
    rw [recalc_resizes]
    rw [List.countP_eq_zero]
    intro q hq
    simp only [bne_iff_ne, ne_eq, not_not]
    exact hcond q hq
  calc recalculate_pair_delays cfg (recalculate_pair_delays cfg pairs m fresh ok).pairs
        (recalculate_pair_delays cfg pairs m fresh ok).max_latency fresh2 ok2 =
      { pairs := (recalculate_pair_delays cfg
            (recalculate_pair_delays cfg pairs m fresh ok).pairs
            (recalculate_pair_delays cfg pairs m fresh ok).max_latency fresh2 ok2).pairs,
        max_latency := (recalculate_pair_delays cfg
            (recalculate_pair_delays cfg pairs m fresh ok).pairs
            (recalculate_pair_delays cfg pairs m fresh ok).max_latency fresh2 ok2).max_latency,
        lockAcquired := (recalculate_pair_delays cfg
            (recalculate_pair_delays cfg pairs m fresh ok).pairs
            (recalculate_pair_delays cfg pairs m fresh ok).max_latency fresh2 ok2).lockAcquired,
        resizes := (recalculate_pair_delays cfg
            (recalculate_pair_delays cfg pairs m fresh ok).pairs
            (recalculate_pair_delays cfg pairs m fresh ok).max_latency fresh2 ok2).resizes } :=
      rfl
    _ = _ := by rw [hpairs, hmax, hlock, hres]

/-! ### C7: the `delay = line.size` invariant -/

/-- A resize whose allocations succeed always sets the line's size to
the requested size. -/
theorem resize_alloc_ok_size (line : DelayLine) (sz : Nat) (fresh : Int) :
    (audio_delay_line_resize line sz fresh true).2.size = sz := by
  unfold audio_delay_line_resize
  split
  · rfl
  · rfl

/-- Processing a block never changes the line's size. -/
theorem process_preserves_size (line : DelayLine) (input : List Int) (period : Nat) :
    (audio_delay_line_process line input period).1.size = line.size := by
  unfold audio_delay_line_process
  dsimp only
  split
  · rfl
  · rfl

/-- C7: outside a resize in progress, every pair satisfies
`delay = line.size`: the invariant holds for freshly initialized pairs,
is (re-)established by every completed `recalculate_pair_delays` pass
whose allocations succeed, and is preserved by every block-processing
call, hence by any interleaving of negotiation passes and block
processing. -/
theorem pair_delay_size_invariant :
    (∀ rs : List (LatencyRange × LatencyRange),
        DelayInv (rs.map fun r => mk_pair r.1 r.2)) ∧
    (∀ (cfg : Config) (pairs : List Pair) (m : ℚ) (fresh : Int),
        DelayInv pairs →
        DelayInv (recalculate_pair_delays cfg pairs m fresh true).pairs) ∧
    (∀ (pairs : List Pair) (blocks : List (List Int)) (n : Nat),
        DelayInv pairs → DelayInv (jack_process pairs blocks n).1) := by
  refine ⟨?_, ?_, ?_⟩
  · intro rs q hq
    rcases List.mem_map.1 hq with ⟨r, -, rfl⟩
    rfl
  · intro cfg pairs m fresh hinv q hq
    rw [recalc_pairs_eq] at hq
    rcases List.mem_map.1 hq with ⟨p, hp, rfl⟩
    by_cases h : p.delay =
        target_delay (recalculate_pair_delays cfg pairs m fresh true).max_latency
          (pair_latency cfg p)
    · rw [if_pos h]
      exact hinv p hp
    · rw [if_neg h]
      show target_delay _ _ = (audio_delay_line_resize p.line _ fresh true).2.size
      rw [resize_alloc_ok_size]
  · intro pairs blocks n hinv q hq
    rcases List.mem_map.1 hq with ⟨pb, hpb, rfl⟩
    show pb.1.delay = (audio_delay_line_process pb.1.line pb.2 n).1.size
    rw [process_preserves_size]
    exact hinv pb.1 (List.of_mem_zip hpb).1

/-- Witness for C7: one freshly initialized pair, one recalculation
pass (growing the line to 4), one processed block. -/
theorem pair_delay_size_invariant_witness :
    DelayInv ([(⟨0, 0⟩, ⟨4, 4⟩)].map fun r => mk_pair r.1 r.2) ∧
    DelayInv (recalculate_pair_delays ⟨false, true, false, 1⟩
      [mk_pair ⟨0, 0⟩ ⟨4, 4⟩] 0 7 true).pairs ∧
    DelayInv (jack_process [mk_pair ⟨0, 0⟩ ⟨4, 4⟩] [[1, 2]] 2).1 :=
  ⟨pair_delay_size_invariant.1 [(⟨0, 0⟩, ⟨4, 4⟩)],
   pair_delay_size_invariant.2.1 ⟨false, true, false, 1⟩ [mk_pair ⟨0, 0⟩ ⟨4, 4⟩] 0 7
     (by decide),
   pair_delay_size_invariant.2.2 [mk_pair ⟨0, 0⟩ ⟨4, 4⟩] [[1, 2]] 2 (by decide)⟩

/-! ### C8: allocation failure is reported but NOT fatal

The claim's first half is accurate: `audio_delay_line_resize` returns
nonzero exactly when growth needs an allocation and that allocation
fails.  The second half is contradicted by the code:
`recalculate_pair_delays` discards the resize's return value (line 189
of lsync.c), stores the new delay anyway, and keeps going with the
remaining pairs — the process does not terminate and continues in
exactly the degraded mode the claim rules out. -/

theorem resize_body_fst (line : DelayLine) (sz : Nat) :
    (audio_delay_line_resize_body line sz).1 = 0 := rfl

/-- Counterexample for C8: three pairs needing delays 4, 0 and 2, with
every allocation failing.  After the first failed resize the pass
continues: it still issues the second resize (`resizes = 2`), stores
all the new delays, and leaves the failed lines with `size = 0` and a
NULL buffer — continuation in degraded mode, not termination. -/
theorem recalc_continues_after_alloc_failure :
    (recalculate_pair_delays ⟨false, true, false, 1⟩
        [mk_pair ⟨0, 0⟩ ⟨0, 0⟩, mk_pair ⟨0, 0⟩ ⟨4, 4⟩, mk_pair ⟨0, 0⟩ ⟨2, 2⟩]
        0 7 false).resizes = 2 ∧
    (recalculate_pair_delays ⟨false, true, false, 1⟩
        [mk_pair ⟨0, 0⟩ ⟨0, 0⟩, mk_pair ⟨0, 0⟩ ⟨4, 4⟩, mk_pair ⟨0, 0⟩ ⟨2, 2⟩]
        0 7 false).pairs.map Pair.delay = [4, 0, 2] ∧
    (recalculate_pair_delays ⟨false, true, false, 1⟩
        [mk_pair ⟨0, 0⟩ ⟨0, 0⟩, mk_pair ⟨0, 0⟩ ⟨4, 4⟩, mk_pair ⟨0, 0⟩ ⟨2, 2⟩]
        0 7 false).pairs.map (fun p => p.line.size) = [0, 0, 0] ∧
    (recalculate_pair_delays ⟨false, true, false, 1⟩
        [mk_pair ⟨0, 0⟩ ⟨0, 0⟩, mk_pair ⟨0, 0⟩ ⟨4, 4⟩, mk_pair ⟨0, 0⟩ ⟨2, 2⟩]
        0 7 false).pairs.map (fun p => p.line.data) = [[], [], []] := by
  norm_num [recalculate_pair_delays, pair_latency, get_port_latency, weighted_latency,
    maxStep, target_delay, mk_pair, audio_delay_line_resize, audio_delay_line_new,
    round_eq, List.foldl, List.countP_cons, List.countP_nil, Int.toNat_ofNat]
  decide

/-- C8 (amended): `audio_delay_line_resize` returns nonzero exactly
when growing requires an allocation and the allocation fails, but the
failure is not fatal: `recalculate_pair_delays` ignores the returned
code, so a run in which every allocation fails produces the same
delays, the same resize count, the same lock behaviour and the same
`max_latency` as a run in which every allocation succeeds —
the pass continues in degraded mode instead of terminating. -/
theorem resize_failure_reported_but_not_fatal :
    (∀ (line : DelayLine) (sz : Nat) (fresh : Int) (ok : Bool),
        (audio_delay_line_resize line sz fresh ok).1 = 1 ↔
          (line.alloc_size < sz ∧ ok = false)) ∧
    (∀ (cfg : Config) (pairs : List Pair) (m : ℚ) (fresh fresh2 : Int),
        (recalculate_pair_delays cfg pairs m fresh false).pairs.map Pair.delay =
          (recalculate_pair_delays cfg pairs m fresh2 true).pairs.map Pair.delay ∧
        (recalculate_pair_delays cfg pairs m fresh false).resizes =
          (recalculate_pair_delays cfg pairs m fresh2 true).resizes ∧
        (recalculate_pair_delays cfg pairs m fresh false).max_latency =
          (recalculate_pair_delays cfg pairs m fresh2 true).max_latency ∧
        (recalculate_pair_delays cfg pairs m fresh false).lockAcquired =
          (recalculate_pair_delays cfg pairs m fresh2 true).lockAcquired) := by
  constructor
  · intro line sz fresh ok
    unfold audio_delay_line_resize
    by_cases h1 : sz > line.alloc_size
    · rw [if_pos h1]
      by_cases h2 : ok = true
      · rw [if_pos h2, resize_body_fst]
        simp [h2]
      · rw [if_neg h2]
        have h2' : ok = false := by revert h2; cases ok <;> simp
        simp [h2', h1]
    · rw [if_neg h1, resize_body_fst]
      simp
      intro h
      omega
  · intro cfg pairs m fresh fresh2
    have hmax : (recalculate_pair_delays cfg pairs m fresh false).max_latency =
        (recalculate_pair_delays cfg pairs m fresh2 true).max_latency := by
      rw [recalc_max_latency, recalc_max_latency]
    refine ⟨?_, ?_, hmax, ?_⟩
    · rw [recalc_pairs_eq, recalc_pairs_eq, List.map_map, List.map_map]
      apply List.map_congr_left
      intro p _
      rw [← hmax]
      by_cases h : p.delay =
          target_delay (recalculate_pair_delays cfg pairs m fresh false).max_latency
            (pair_latency cfg p)
      · simp only [Function.comp_apply, if_pos h]
      · simp only [Function.comp_apply, if_neg h]
    · rw [recalc_resizes, recalc_resizes, ← hmax]
    · rw [recalc_lockAcquired, recalc_lockAcquired, ← hmax]

theorem zip_self_map {α β : Type} (l : List α) (f : α → β) :
    l.zip (l.map f) = l.map fun a => (a, f a) := by
  induction l with
  | nil => rfl
  | cons x l ih => rw [List.map_cons, List.zip_cons_cons, ih, List.map_cons]

/-! ### C9: the latency callback republishes shifted upstream ranges -/

/-- C9: for every pair and each latency direction, `jack_latency`
publishes, on the downstream port (the output port in capture mode, the
input port in playback mode), exactly the upstream port's range for
that direction (the input port's capture range, resp. the output
port's playback range, unchanged by the recalculation) with the pair's
current (post-recalculation) delay added to both bounds. -/
theorem jack_latency_publishes_shifted_upstream (mode : LatencyMode) (cfg : Config)
    (pairs : List Pair) (m : ℚ) (fresh : Int) (ok : Bool) :
    (jack_latency mode cfg pairs m fresh ok).2 =
      (pairs.zip (recalculate_pair_delays cfg pairs m fresh ok).pairs).map fun pq =>
        (match mode with
          | .capture => PortSide.output
          | .playback => PortSide.input,
         { min := (upstream_range mode pq.1).min + pq.2.delay,
           max := (upstream_range mode pq.1).max + pq.2.delay }) := by
  unfold jack_latency
  dsimp only
  rw [recalc_pairs_eq, zip_self_map, List.map_map, List.map_map]
  apply List.map_congr_left
  intro p _
  by_cases h : p.delay =
      target_delay (recalculate_pair_delays cfg pairs m fresh ok).max_latency
        (pair_latency cfg p)
  · simp only [Function.comp_apply, id, if_pos h]
    cases mode <;> rfl
  · simp only [Function.comp_apply, id, if_neg h]
    cases mode <;> rfl

/-! ### C1: `process` realizes an exact `size`-sample delay -/

/-- A well-formed line's content has exactly `size` samples. -/
theorem content_length (line : DelayLine) (h : line.WF) :
    line.content.length = line.size := by
  obtain ⟨h1, h2, h3, h4⟩ := h
  have hp : line.pos ≤ line.size := by
    rcases Nat.eq_zero_or_pos line.size with hd | hd
    · simp [h3 hd]
    · exact le_of_lt (h4 hd)
  unfold DelayLine.content
  rw [List.length_append, readSlice_length _ _ _ (by omega),
    readSlice_length _ _ _ (by omega)]
  omega

theorem take_append_min (C I : List Int) :
    (C ++ I).take I.length =
      C.take (min I.length C.length) ++ I.take (I.length - min I.length C.length) := by
  rw [List.take_append_eq_append_take]
  congr 1
  · rcases Nat.le_total I.length C.length with h | h
    · rw [Nat.min_eq_left h]
    · rw [Nat.min_eq_right h, List.take_of_length_le h, List.take_length]
  · congr 1
    omega

theorem drop_append_min (C I : List Int) :
    (C ++ I).drop I.length =
      C.drop (min I.length C.length) ++ I.drop (I.length - min I.length C.length) := by
  rw [List.drop_append_eq_append_drop]
  congr 1
  · rcases Nat.le_total I.length C.length with h | h
    · rw [Nat.min_eq_left h]
    · rw [Nat.min_eq_right h, List.drop_eq_nil_of_le h, List.drop_length]
  · congr 1
    omega

theorem readSlice_zero_start (l : List Int) (n : Nat) : readSlice l 0 n = l.take n := by
  unfold readSlice; rw [List.drop_zero]

theorem readSlice_len_zero (l : List Int) (s : Nat) : readSlice l s 0 = [] := by
  unfold readSlice; rw [List.take_zero]

theorem readSlice_append (A B : List Int) (s n : Nat) :
    readSlice (A ++ B) s n =
      readSlice A s n ++ readSlice B (s - A.length) (n - (A.length - s)) := by
  unfold readSlice
  rw [List.drop_append_eq_append_drop, List.take_append_eq_append_take, List.length_drop]

theorem readSlice_of_ge (l : List Int) (s n : Nat) (h : l.length ≤ s) :
    readSlice l s n = [] := by
  unfold readSlice
  rw [List.drop_eq_nil_of_le h, List.take_nil]

theorem readSlice_all (l : List Int) (n : Nat) (h : l.length ≤ n) :
    readSlice l 0 n = l := by
  rw [readSlice_zero_start, List.take_of_length_le h]

theorem readSlice_append_at (A B : List Int) (s n : Nat) (h : s = A.length) :
    readSlice (A ++ B) s n = readSlice B 0 n := by
  subst h
  rw [readSlice_append, readSlice_of_ge A _ _ (le_refl _), Nat.sub_self,
    Nat.sub_zero, List.nil_append]

theorem readSlice_append_head (A B : List Int) (n : Nat) (h : n ≤ A.length) :
    readSlice (A ++ B) 0 n = A.take n := by
  rw [readSlice_zero_start, List.take_append_eq_append_take,
    show n - A.length = 0 by omega, List.take_zero, List.append_nil]

/-- One `process` call on a well-formed line emits exactly the first
`input.length` samples of `content ++ input` and retains the last
`size` of them, preserving well-formedness, the size and the
allocation. -/
theorem process_step (line : DelayLine) (hwf : line.WF) (input : List Int) :
    (audio_delay_line_process line input input.length).2 =
      (line.content ++ input).take input.length ∧
    (audio_delay_line_process line input input.length).1.content =
      (line.content ++ input).drop input.length ∧
    (audio_delay_line_process line input input.length).1.WF ∧
    (audio_delay_line_process line input input.length).1.size = line.size := by
  rcases line with ⟨D, d, a, p⟩
  obtain ⟨h1, h2, h3, h4⟩ := hwf
  dsimp only at h1 h2 h3 h4
  by_cases hd : d = 0
  · subst hd
    have hp0 : p = 0 := h3 rfl
    subst hp0
    unfold audio_delay_line_process DelayLine.content
    dsimp only
    rw [if_neg (by simp)]
    simp only [Nat.min_zero, Nat.sub_zero, Nat.sub_self, readSlice_len_zero,
      readSlice_zero_start, List.take_length, List.nil_append, List.take_zero]
    refine ⟨trivial, by rw [List.drop_length], ?_, trivial⟩
    unfold DelayLine.WF
    exact ⟨h1, h2, fun _ => rfl, fun h => absurd h (lt_irrefl 0)⟩
  · have hp : p < d := h4 (Nat.pos_of_ne_zero hd)
    unfold audio_delay_line_process
    dsimp only
    rw [if_pos (show d ≠ 0 from hd)]
    set t := min input.length d with ht
    set c1 := min (d - p) t with hc1
    set c2 := t - c1 with hc2
    have hLt : t ≤ input.length := by omega
    have htd : t ≤ d := by omega
    have hc1d : c1 ≤ d - p := by omega
    have hc1t : c1 ≤ t := by omega
    have hc2p : c2 ≤ p := by omega
    have hlen1 : (readSlice input (input.length - t) c1).length = c1 :=
      readSlice_length _ _ _ (by omega)
    have hE1 : writeSlice D p (readSlice input (input.length - t) c1) =
        D.take p ++ readSlice input (input.length - t) c1 ++ D.drop (p + c1) := by
      rw [writeSlice_eq _ _ _ (by rw [hlen1]; omega), hlen1]
    rw [hE1]
    have hlen2 : (readSlice input (input.length - c2) c2).length = c2 :=
      readSlice_length _ _ _ (by omega)
    have htakep : (List.take p D).length = p := by rw [List.length_take]; omega
    have hE2 : writeSlice
        (List.take p D ++ readSlice input (input.length - t) c1 ++ List.drop (p + c1) D) 0
        (readSlice input (input.length - c2) c2) =
        readSlice input (input.length - c2) c2 ++
          ((D.drop c2).take (p - c2) ++ readSlice input (input.length - t) c1 ++
            List.drop (p + c1) D) := by
      rw [writeSlice_eq _ _ _ (by
        rw [hlen2, List.length_append, List.length_append, htakep, hlen1, List.length_drop]
        omega)]
      rw [hlen2, List.take_zero, List.nil_append, Nat.zero_add]
      congr 1
      rw [List.drop_append_eq_append_drop, List.drop_append_eq_append_drop,
        List.length_append, htakep, hlen1,
        show c2 - p = 0 by omega, show c2 - (p + c1) = 0 by omega,
        List.drop_zero, List.drop_zero, List.drop_take]
    have hout2 : readSlice
        (List.take p D ++ readSlice input (input.length - t) c1 ++ List.drop (p + c1) D)
        0 c2 = List.take c2 D := by
      rw [readSlice_zero_start, List.take_append_eq_append_take,
        List.take_append_eq_append_take, List.length_append, htakep, hlen1,
        show c2 - p = 0 by omega, show c2 - (p + c1) = 0 by omega,
        List.take_zero, List.take_zero, List.append_nil, List.append_nil, List.take_take,
        show min c2 p = c2 by omega]
    rw [hE2, hout2]
    unfold DelayLine.content
    dsimp only
    have hclen : (readSlice D p (d - p) ++ readSlice D 0 p).length = d := by
      rw [List.length_append, readSlice_length _ _ _ (by omega),
        readSlice_length _ _ _ (by omega)]
      omega
    refine ⟨?_, ?_, ?_, rfl⟩
    · rw [take_append_min, hclen, ← ht, List.take_append_eq_append_take,
        readSlice_length _ _ _ (by omega : p + (d - p) ≤ D.length)]
      congr 1
      · congr 1
        · unfold readSlice
          rw [List.take_take, show min t (d - p) = c1 by omega]
        · rw [readSlice_zero_start, List.take_take, show min (t - (d - p)) p = c2 by omega]
    · rw [drop_append_min, hclen, ← ht, List.drop_append_eq_append_drop,
        readSlice_length _ _ _ (by omega : p + (d - p) ≤ D.length)]
      have fa : (readSlice D p (d - p)).drop t = readSlice D (p + t) (d - p - t) := by
        unfold readSlice
        rw [List.drop_take, List.drop_drop]
      have fb : (readSlice D 0 p).drop (t - (d - p)) =
          (D.drop (t - (d - p))).take (p - (t - (d - p))) := by
        rw [readSlice_zero_start, List.drop_take]
      rw [fa, fb]
      have hs1 : readSlice input (input.length - t) c1 =
          (input.drop (input.length - t)).take c1 := rfl
      rcases Nat.lt_or_ge (d - p) t with hB | hA
      · rw [show d - p - t = 0 by omega, readSlice_len_zero, List.nil_append,
          show t - (d - p) = c2 by omega,
          show p + t = d + c2 by omega, Nat.add_mod_left,
          Nat.mod_eq_of_lt (show c2 < d by omega)]
        rw [readSlice_append_head _ _ _ (le_of_eq hlen2.symm),
          List.take_of_length_le (le_of_eq hlen2),
          readSlice_append_at _ _ _ _ hlen2.symm]
        have hMS1 : ((D.drop c2).take (p - c2) ++ readSlice input (input.length - t) c1).length
            = d - c2 := by
          rw [List.length_append, List.length_take, List.length_drop, hlen1, h2]
          omega
        rw [readSlice_append_head _ _ _ (le_of_eq hMS1.symm),
          List.take_of_length_le (le_of_eq hMS1)]
        rw [List.append_assoc]
        congr 1
        have hs2 : readSlice input (input.length - c2) c2 =
            input.drop (input.length - c2) := by
          unfold readSlice
          exact List.take_of_length_le (by rw [List.length_drop]; omega)
        rw [hs2, show input.length - c2 = input.length - t + c1 by omega,
          ← List.drop_drop, hs1]
        exact List.take_append_drop c1 (input.drop (input.length - t))
      · have hc2A : c2 = 0 := by omega
        have hc1A : c1 = t := by omega
        rw [show t - (d - p) = 0 by omega, List.drop_zero, Nat.sub_zero]
        rw [hc2A, readSlice_len_zero, List.nil_append, List.drop_zero, Nat.sub_zero, hc1A]
        have hs1t : readSlice input (input.length - t) t = input.drop (input.length - t) := by
          unfold readSlice
          exact List.take_of_length_le (by rw [List.length_drop]; omega)
        have hABl : (List.take p D ++ readSlice input (input.length - t) t).length = p + t := by
          rw [List.length_append, htakep, readSlice_length _ _ _ (by omega)]
        rcases Nat.lt_or_ge (p + t) d with hA1 | hA2
        · rw [Nat.mod_eq_of_lt hA1]
          rw [readSlice_append_at _ _ _ _ hABl.symm,
            readSlice_zero_start (List.drop (p + t) D),
            readSlice_append_head _ _ _ (le_of_eq hABl.symm),
            List.take_of_length_le (le_of_eq hABl)]
          rw [hs1t, show d - (p + t) = d - p - t by omega, ← List.append_assoc]
          rfl
        · have hpt : p + t = d := by omega
          rw [hpt, Nat.mod_self, Nat.sub_zero, readSlice_len_zero, List.append_nil]
          rw [show d - p - t = 0 by omega, readSlice_len_zero, List.nil_append]
          rw [readSlice_append_head _ _ _ (by rw [hABl]; omega),
            List.take_of_length_le (by rw [hABl]; omega), hs1t]
    · unfold DelayLine.WF
      dsimp only
      refine ⟨h1, ?_, fun h0 => absurd h0 hd, fun _ => Nat.mod_lt _ (Nat.pos_of_ne_zero hd)⟩
      rw [List.length_append, List.length_append, List.length_append, hlen2, hlen1,
        List.length_take, List.length_drop, List.length_drop, h2]
      omega

/-- C1: over any sequence of `process` calls on a well-formed delay
line of fixed size `d`, the concatenated output is the concatenated
input delayed by exactly `d` samples: it equals the first
(total-input-length) samples of `initial content ++ all inputs`, so the
first `d` emitted samples are the previously buffered history (silence
for a freshly resized line); block lengths 0, below, equal to, or above
`d` are all covered, the line stays well-formed with unchanged size
(wraparound of the circular read position included), and the retained
content is the last `d` samples that entered. -/
theorem process_exact_delay (bs : List (List Int)) : ∀ line : DelayLine, line.WF →
    (processAll line bs).2 =
      (line.content ++ bs.flatten).take bs.flatten.length ∧
    (processAll line bs).1.content =
      (line.content ++ bs.flatten).drop bs.flatten.length ∧
    (processAll line bs).1.WF ∧
    (processAll line bs).1.size = line.size := by
  induction bs with
  | nil =>
    intro line hwf
    refine ⟨rfl, ?_, hwf, rfl⟩
    rw [List.flatten_nil, List.append_nil, List.length_nil, List.drop_zero]
    rfl
  | cons b bs ih =>
    intro line hwf
    obtain ⟨ho, hc, hw, hs⟩ := process_step line hwf b
    obtain ⟨ho2, hc2, hw2, hs2⟩ := ih (audio_delay_line_process line b b.length).1 hw
    have hz : b.length - (line.content ++ b).length = 0 := by
      rw [List.length_append]; omega
    refine ⟨?_, ?_, hw2, hs2.trans hs⟩
    · show (audio_delay_line_process line b b.length).2 ++
          (processAll (audio_delay_line_process line b b.length).1 bs).2 = _
      conv_rhs => rw [List.flatten_cons, List.length_append, ← List.append_assoc,
        List.take_add, List.take_append_eq_append_take, hz, List.take_zero,
        List.append_nil, List.drop_append_eq_append_drop, hz, List.drop_zero]
      rw [ho, ho2, hc]
    · show (processAll (audio_delay_line_process line b b.length).1 bs).1.content = _
      conv_rhs => rw [List.flatten_cons, List.length_append, ← List.append_assoc,
        ← List.drop_drop, List.drop_append_eq_append_drop, hz, List.drop_zero]
      rw [hc2, hc]

/-- Witness for C1, the claim's own example: delay 3, one block of
length 5 on a silence-filled line — the first 3 outputs are the
buffered silence and the remaining 2 are the first 2 input samples. -/
theorem process_exact_delay_witness :
    (processAll ⟨[0, 0, 0], 3, 3, 0⟩ [[1, 2, 3, 4, 5]]).2 = [0, 0, 0, 1, 2] ∧
    (processAll ⟨[0, 0, 0], 3, 3, 0⟩ [[1, 2, 3, 4, 5]]).1.content = [3, 4, 5] :=
  ⟨((process_exact_delay [[1, 2, 3, 4, 5]] ⟨[0, 0, 0], 3, 3, 0⟩ (by decide)).1).trans
      (by decide),
   ((process_exact_delay [[1, 2, 3, 4, 5]] ⟨[0, 0, 0], 3, 3, 0⟩ (by decide)).2.1).trans
      (by decide)⟩
